import Mathlib

/-!
Verification of the mbwatch channel resolver, IMAP IDLE driver and
connection pool against their natural-language specification.

Strings are modelled as lists of characters (`Str`).  All delimiters that
occur in this program are single characters (the IMAP namespace regex
captures exactly one character, and the default flatten delimiter is `/`),
so the Python single-character `str.replace` is modelled as a character map.
-/

namespace Mbwatch

abbrev Str := List Char

/-- Python `s.replace(old, new)` for single-character `old` and `new`. -/
def pyReplace (s : Str) (old new : Char) : Str :=
  s.map fun c => if c = old then new else c

/-- channels.get_normalized_box: transform prefixed mailbox to a
slash-delimited unprefixed one. -/
def get_normalized_box (mailbox pfx : Str) (delimiter : Char) : Str :=
  let mb := pyReplace mailbox delimiter '/'
  if pfx.isPrefixOf mb then mb.drop pfx.length else mb

/-- channels.get_store_box: transform an unprefixed slash-delimited mailbox
to the prefixed delimiter-joined one. -/
def get_store_box (mailbox pfx : Str) (delimiter : Char) : Str :=
  pyReplace (pfx ++ mailbox) '/' delimiter

/-- One item of a compiled mailbox pattern regex: a literal character, the
`.*` produced from `*`, or the single-character class `[^delim]` produced
from `%`. -/
inductive PatItem
  | lit (c : Char)
  | anyRun
  | notDelim (d : Char)
deriving DecidableEq, Repr

/-- The body compilation done by channels.pattern_to_regex: the pattern is
passed through the escape function of the regex module, which escapes every
non-alphanumeric character (the Python 2 behaviour this code, written
against the six compatibility layer, relies on: the escaped pattern
contains the two-character tokens backslash-star and backslash-percent),
and the two replace calls rewrite those tokens to `.*` and `[^delim]`.
The escaped tokens never straddle the boundary between the escapes of two
source characters, so the net effect is this per-character translation. -/
def compileEscaped (p : Str) (d : Char) : List PatItem :=
  p.map fun c =>
    if c = '*' then PatItem.anyRun
    else if c = '%' then PatItem.notDelim d
    else PatItem.lit c

/-- channels.pattern_to_regex: a leading `!` becomes a negation flag and is
stripped; the rest is compiled to an end-anchored regex. -/
def pattern_to_regex (pattern : Str) (delimiter : Char) : Bool × List PatItem :=
  let neg := decide (pattern.head? = some '!')
  let patre := if neg then pattern.tail else pattern
  (neg, compileEscaped patre delimiter)

/-- Matching of a compiled pattern against a whole mailbox name: the Python
code anchors with `regex.match` at the start and a trailing `$`.  The item
`.*` matches when some suffix of the input matches the rest of the
pattern. -/
def reMatch : List PatItem → Str → Bool
  | [], s => s.isEmpty
  | PatItem.lit c :: ps, s =>
      match s with
      | [] => false
      | x :: xs => (x == c) && reMatch ps xs
  | PatItem.notDelim d :: ps, s =>
      match s with
      | [] => false
      | x :: xs => (x != d) && reMatch ps xs
  | PatItem.anyRun :: ps, s => s.tails.any fun t => reMatch ps t

/-- The decision the regexps branch of channels.get_syncmap takes for one
normalized box name: patterns are tried in reverse order, the first match
decides, and the negation flag of that pattern decides inclusion; no match
means exclusion. -/
def regexpsDecide (regexps : List (Bool × List PatItem)) (box : Str) : Bool :=
  match regexps.reverse.find? (fun nr => reMatch nr.2 box) with
  | some nr => !nr.1
  | none => false

theorem reMatch_anyRun_all (s : Str) : reMatch [PatItem.anyRun] s = true := by
  simp only [reMatch, List.any_eq_true]
  refine ⟨[], ?_, rfl⟩
  exact (List.mem_tails [] s).mpr List.nil_suffix

theorem reMatch_percent (s : Str) :
    reMatch [PatItem.notDelim '/'] s = true ↔ ∃ c, s = [c] ∧ c ≠ '/' := by
  match s with
  | [] => simp [reMatch]
  | [x] =>
    simp [reMatch]
  | x :: y :: ys =>
    simp [reMatch]

theorem find?_append_false {α : Type} (p : α → Bool) (l1 l2 : List α)
    (h : ∀ x ∈ l1, p x = false) :
    List.find? p (l1 ++ l2) = List.find? p l2 := by
  have h1 : List.find? p l1 = none := by
    rw [List.find?_eq_none]
    intro x hx
    simp [h x hx]
  rw [List.find?_append, h1, Option.none_or]

theorem regexpsDecide_last_wins (rs1 rs2 : List (Bool × List PatItem))
    (neg : Bool) (r : List PatItem) (box : Str)
    (h1 : reMatch r box = true)
    (h2 : ∀ q ∈ rs2, reMatch q.2 box = false) :
    regexpsDecide (rs1 ++ (neg, r) :: rs2) box = !neg := by
  unfold regexpsDecide
  have hrev : (rs1 ++ (neg, r) :: rs2).reverse
      = rs2.reverse ++ (neg, r) :: rs1.reverse := by
    simp
  rw [hrev]
  rw [find?_append_false _ _ _ (fun q hq => h2 q (List.mem_reverse.mp hq))]
  simp [List.find?, h1]

/-- C1 (amended): with delimiter `/`, the pattern `*` matches any string,
the pattern `%` matches exactly the one-character strings other than `/`
(not every slash-free string, as claimed), a leading `!` sets the negation
flag and compiles the rest of the pattern, and when a pattern list is
evaluated the last matching pattern decides inclusion. -/
theorem c1_pattern_semantics_amended :
    (∀ s : Str, reMatch (pattern_to_regex ("*".toList) '/').2 s = true)
    ∧ (∀ s : Str, reMatch (pattern_to_regex ("%".toList) '/').2 s = true
        ↔ ∃ c, s = [c] ∧ c ≠ '/')
    ∧ (∀ p : Str, ∀ d : Char,
        pattern_to_regex ('!' :: p) d = (true, compileEscaped p d))
    ∧ (∀ (rs1 rs2 : List (Bool × List PatItem)) (neg : Bool)
        (r : List PatItem) (box : Str),
        reMatch r box = true → (∀ q ∈ rs2, reMatch q.2 box = false) →
        regexpsDecide (rs1 ++ (neg, r) :: rs2) box = !neg) := by
  refine ⟨?_, ?_, ?_, ?_⟩
  · intro s
    exact reMatch_anyRun_all s
  · intro s
    exact reMatch_percent s
  · intro p d
    rfl
  · intro rs1 rs2 neg r box h1 h2
    exact regexpsDecide_last_wins rs1 rs2 neg r box h1 h2

/-- C1 counterexample: the name `ab` contains no `/`, yet the single
pattern `%` does not select it, contrary to the claim that `%` matches any
string not containing `/`. -/
theorem c1_percent_counterexample :
    regexpsDecide [pattern_to_regex ("%".toList) '/'] ("ab".toList) = false
    ∧ '/' ∉ "ab".toList := by
  constructor
  · rfl
  · decide

theorem pyReplace_roundtrip (m : Str) (delim : Char) (h : '/' ∉ m) :
    pyReplace (pyReplace m delim '/') '/' delim = m := by
  induction m with
  | nil => rfl
  | cons c t ih =>
    have hc : c ≠ '/' := fun hcc => h (hcc ▸ List.mem_cons_self c t)
    have ht : '/' ∉ t := fun htt => h (List.mem_cons_of_mem c htt)
    show (if (if c = delim then '/' else c) = '/' then delim
        else if c = delim then '/' else c)
        :: pyReplace (pyReplace t delim '/') '/' delim = c :: t
    rw [ih ht]
    by_cases hcd : c = delim
    · simp [hcd]
    · simp [hcd, hc]

/-- C10: for a mailbox name without `/` whose slash-normalized form starts
with the prefix, get_store_box undoes get_normalized_box. -/
theorem c10_box_roundtrip (m pfx : Str) (delim : Char)
    (h1 : '/' ∉ m)
    (h2 : pfx.isPrefixOf (pyReplace m delim '/') = true) :
    get_store_box (get_normalized_box m pfx delim) pfx delim = m := by
  unfold get_normalized_box get_store_box
  simp only [h2, if_true]
  have hpre : pfx <+: pyReplace m delim '/' := by
    exact List.isPrefixOf_iff_prefix.mp h2
  obtain ⟨t, ht⟩ := hpre
  rw [← ht]
  rw [List.drop_left]
  rw [ht]
  exact pyReplace_roundtrip m delim h1

/-- C10 witness: a concrete round trip with delimiter `.` and prefix
`INBOX/`. -/
theorem c10_box_roundtrip_witness :
    get_store_box (get_normalized_box ("INBOX.Work".toList) ("INBOX/".toList) '.')
      ("INBOX/".toList) '.' = "INBOX.Work".toList :=
  c10_box_roundtrip ("INBOX.Work".toList) ("INBOX/".toList) '.'
    (by decide) (by decide)

/-! ## The channel and store data model and get_syncmap -/

/-- A store after population: its name (the imapstore or maildirstore
name), its path prefix, its optional distinguished inbox path (present for
Maildir stores, absent for IMAP stores), its hierarchy delimiter and its
enumerated mailbox names. -/
structure Store where
  name : Str
  path : Str
  inbox : Option Str
  delimiter : Char
  mailboxes : List Str
deriving DecidableEq, Repr

/-- The selection clause of a channel: an explicit box list, compiled
patterns, or neither (single box formed from the prefix). -/
inductive Clause
  | boxes (bs : List Str)
  | patterns (regexps : List (Bool × List PatItem))
  | single
deriving DecidableEq, Repr

/-- A channel: master and slave stores, their box prefixes, and the
selection clause. -/
structure Channel where
  master : Store
  slave : Store
  master_box : Str
  slave_box : Str
  clause : Clause
deriving DecidableEq, Repr

/-- The exceptions get_syncmap can raise. -/
inductive PyErr
  | typeError
  | mailboxError
deriving DecidableEq, Repr

/-- An endpoint tuple (store name, logical mailbox, full path). -/
abbrev Endpoint := Str × Str × Str

/-- A syncmap value: the partner endpoint extended with the channel name. -/
abbrev SyncVal := Endpoint × Str

/-- channels.get_box_path: the store path joined with the store-form box
name, or the inbox path (default INBOX) for the INBOX box. -/
def get_box_path (sbox : Str) (store : Store) : Str :=
  if sbox ≠ "INBOX".toList then store.path ++ sbox
  else store.inbox.getD ("INBOX".toList)

/-- Python dict lookup on an association list with unique keys. -/
def dictGet {α β : Type} [DecidableEq α] : List (α × β) → α → Option β
  | [], _ => none
  | (k', v) :: rest, k => if k' = k then some v else dictGet rest k

/-- Python dict assignment: replace the value in place when the key is
present, append otherwise. -/
def dictUpsert {α β : Type} [DecidableEq α] : List (α × β) → α → β → List (α × β)
  | [], k, v => [(k, v)]
  | (k', v') :: rest, k, v =>
      if k' = k then (k', v) :: rest else (k', v') :: dictUpsert rest k v

/-- Python del on a dict: remove the entry of the key. -/
def dictDel {α β : Type} [DecidableEq α] : List (α × β) → α → List (α × β)
  | [], _ => []
  | (k', v) :: rest, k => if k' = k then rest else (k', v) :: dictDel rest k

/-- The explicit-box-list branch of get_syncmap.  After the membership
check the source computes the path by calling get_store_box with the two
arguments sbox and store, where get_store_box takes the three parameters
mailbox, prefix and delimiter; in Python that call raises TypeError before
any pair is recorded. -/
def boxesSide (store : Store) (pfx : Str) : List Str → Except PyErr (List (Str × Endpoint))
  | [] => Except.ok []
  | box :: _ =>
      let sbox := get_store_box box pfx store.delimiter
      if sbox ∈ store.mailboxes then
        Except.error PyErr.typeError
      else Except.error PyErr.mailboxError

/-- The patterns branch of get_syncmap: every enumerated store mailbox is
normalized and kept when the reversed pattern list selects it. -/
def regexpsSide (store : Store) (pfx : Str)
    (rs : List (Bool × List PatItem)) : List (Str × Endpoint) :=
  store.mailboxes.filterMap fun sbox =>
    let box := get_normalized_box sbox pfx store.delimiter
    if regexpsDecide rs box then
      some (box, (store.name, box, get_box_path sbox store))
    else none

/-- One side of one channel: the (pairs key, endpoint) records the source
appends for this store, by selection clause. -/
def sideEntries (store : Store) (pfx : Str) : Clause → Except PyErr (List (Str × Endpoint))
  | Clause.boxes bs => boxesSide store pfx bs
  | Clause.patterns rs => Except.ok (regexpsSide store pfx rs)
  | Clause.single =>
      let box := if pfx.isEmpty then "INBOX".toList else pfx
      let sbox := get_store_box box [] store.delimiter
      Except.ok [([], (store.name, box, get_box_path sbox store))]

/-- Appending to a defaultdict of lists, preserving key insertion order. -/
def addPair (acc : List (Str × List Endpoint)) (b : Str) (e : Endpoint) :
    List (Str × List Endpoint) :=
  match acc with
  | [] => [(b, [e])]
  | (b', es) :: rest =>
      if b' = b then (b', es ++ [e]) :: rest else (b', es) :: addPair rest b e

/-- The pairs defaultdict of get_syncmap, grouped in insertion order. -/
def groupPairs (l : List (Str × Endpoint)) : List (Str × List Endpoint) :=
  l.foldl (fun acc be => addPair acc be.1 be.2) []

/-- The per-pair step of get_syncmap: a pair must hold exactly two
endpoints, and contributes the two symmetric syncmap insertions. -/
def pairsToUpdates (chname : Str) :
    List (Str × List Endpoint) → Except PyErr (List (Endpoint × SyncVal))
  | [] => Except.ok []
  | (_, es) :: rest =>
      match es with
      | [e1, e2] => do
          let tailUpdates ← pairsToUpdates chname rest
          Except.ok ((e1, (e2, chname)) :: (e2, (e1, chname)) :: tailUpdates)
      | _ => Except.error PyErr.mailboxError

/-- The syncmap insertions of one channel: master side, then slave side,
grouped by logical box, then paired. -/
def channelEntries (chname : Str) (ch : Channel) : Except PyErr (List (Endpoint × SyncVal)) := do
  let mEntries ← sideEntries ch.master ch.master_box ch.clause
  let sEntries ← sideEntries ch.slave ch.slave_box ch.clause
  pairsToUpdates chname (groupPairs (mEntries ++ sEntries))

/-- The full ordered sequence of syncmap insertions over all channels. -/
def syncEntries : List (Str × Channel) → Except PyErr (List (Endpoint × SyncVal))
  | [] => Except.ok []
  | (chname, ch) :: rest => do
      let ups ← channelEntries chname ch
      let tailEs ← syncEntries rest
      Except.ok (ups ++ tailEs)

/-- channels.get_syncmap: the bi-directional map, built by performing every
insertion in order on an initially empty dict. -/
def get_syncmap (channels : List (Str × Channel)) : Except PyErr (List (Endpoint × SyncVal)) :=
  (syncEntries channels).map fun es =>
    es.foldl (fun m kv => dictUpsert m kv.1 kv.2) []

/-! ## C4: the explicit box list branch -/

def c4master : Store :=
  { name := "imap".toList, path := [], inbox := none,
    delimiter := '/', mailboxes := ["Inbox".toList, "Archive".toList] }

def c4slave : Store :=
  { name := "mdir".toList, path := "md/".toList, inbox := some ("md/Inbox".toList),
    delimiter := '/', mailboxes := ["Inbox".toList, "Archive".toList, "INBOX".toList] }

def c4channel : Channel :=
  { master := c4master, slave := c4slave, master_box := [], slave_box := [],
    clause := Clause.boxes ["Inbox".toList, "Archive".toList] }

/-- C4 (code bug): a channel with an explicit box list whose boxes are
present in both stores does not produce a syncmap at all: the path
computation of the source calls get_store_box with two arguments where
three parameters are required, so Python raises TypeError at the first
box.  The parallel patterns branch calls get_box_path there, which is what
the specification describes. -/
theorem c4_boxes_typeerror_evaluation :
    get_syncmap [("boxchan".toList, c4channel)] = Except.error PyErr.typeError := by
  rfl

/-! ## Dictionary lemmas and the C7 involution -/

def keysNodup {α β : Type} [DecidableEq α] (m : List (α × β)) : Prop :=
  (m.map Prod.fst).Nodup

instance {α β : Type} [DecidableEq α] (m : List (α × β)) : Decidable (keysNodup m) :=
  List.nodupDecidable _

theorem dictGet_mem {α β : Type} [DecidableEq α] {m : List (α × β)} {k : α} {v : β}
    (h : dictGet m k = some v) : (k, v) ∈ m := by
  induction m with
  | nil => simp [dictGet] at h
  | cons kv rest ih =>
    obtain ⟨k', v'⟩ := kv
    by_cases hk : k' = k
    · subst hk
      simp [dictGet] at h
      simp [h]
    · simp [dictGet, hk] at h
      exact List.mem_cons_of_mem _ (ih h)

theorem mem_dictGet_nodup {α β : Type} [DecidableEq α] {m : List (α × β)} {k : α} {v : β}
    (hnd : keysNodup m) (h : (k, v) ∈ m) : dictGet m k = some v := by
  induction m with
  | nil => simp at h
  | cons kv rest ih =>
    obtain ⟨k', v'⟩ := kv
    have hnd' : keysNodup rest := by
      simpa [keysNodup] using (List.nodup_cons.mp hnd).2
    rcases List.mem_cons.mp h with heq | hmem
    · obtain ⟨h1, h2⟩ := Prod.mk.injEq .. ▸ heq
      subst h1; subst h2
      simp [dictGet]
    · have hk : k' ≠ k := by
        intro hkk
        subst hkk
        have : k' ∈ rest.map Prod.fst := List.mem_map_of_mem Prod.fst hmem
        exact (List.nodup_cons.mp hnd).1 this
      simp [dictGet, hk]
      exact ih hnd' hmem

theorem dictUpsert_not_mem {α β : Type} [DecidableEq α] {m : List (α × β)} {k : α} (v : β)
    (h : k ∉ m.map Prod.fst) : dictUpsert m k v = m ++ [(k, v)] := by
  induction m with
  | nil => rfl
  | cons kv rest ih =>
    obtain ⟨k', v'⟩ := kv
    have hk : k' ≠ k := by
      intro hkk
      exact h (by simp [hkk])
    simp [dictUpsert, hk]
    exact ih fun hm => h (by simp at hm ⊢; right; exact hm)

theorem foldl_upsert_acc {α β : Type} [DecidableEq α] (es : List (α × β)) :
    ∀ acc : List (α × β), keysNodup (acc ++ es) →
    es.foldl (fun m kv => dictUpsert m kv.1 kv.2) acc = acc ++ es := by
  induction es with
  | nil => intro acc _; simp
  | cons kv rest ih =>
    intro acc hnd
    have hk : kv.1 ∉ acc.map Prod.fst := by
      intro hmem
      have : ¬ (acc.map Prod.fst ++ kv.1 :: rest.map Prod.fst).Nodup := by
        intro hh
        have := List.disjoint_of_nodup_append hh
        exact absurd (List.mem_cons_self kv.1 _) (this hmem)
      apply this
      simpa [keysNodup] using hnd
    have hstep : dictUpsert acc kv.1 kv.2 = acc ++ [kv] := by
      have := dictUpsert_not_mem (m := acc) (k := kv.1) kv.2 hk
      simpa using this
    have hnd2 : keysNodup ((acc ++ [kv]) ++ rest) := by
      simpa [keysNodup, List.append_assoc] using hnd
    calc (kv :: rest).foldl (fun m kv => dictUpsert m kv.1 kv.2) acc
        = rest.foldl (fun m kv => dictUpsert m kv.1 kv.2) (dictUpsert acc kv.1 kv.2) := rfl
      _ = rest.foldl (fun m kv => dictUpsert m kv.1 kv.2) (acc ++ [kv]) := by rw [hstep]
      _ = (acc ++ [kv]) ++ rest := ih (acc ++ [kv]) hnd2
      _ = acc ++ kv :: rest := by simp

theorem foldl_upsert_eq {α β : Type} [DecidableEq α] {es : List (α × β)}
    (h : keysNodup es) :
    es.foldl (fun m kv => dictUpsert m kv.1 kv.2) [] = es := by
  simpa using foldl_upsert_acc es [] (by simpa using h)

/-- The symmetry invariant of the syncmap insertions: every inserted entry
has its mirrored partner entry inserted too. -/
def SymmAL (L : List (Endpoint × SyncVal)) : Prop :=
  ∀ kv ∈ L, (kv.2.1, (kv.1, kv.2.2)) ∈ L

theorem symmAL_append {L1 L2 : List (Endpoint × SyncVal)}
    (h1 : SymmAL L1) (h2 : SymmAL L2) : SymmAL (L1 ++ L2) := by
  intro kv hkv
  rcases List.mem_append.mp hkv with hm | hm
  · exact List.mem_append.mpr (Or.inl (h1 kv hm))
  · exact List.mem_append.mpr (Or.inr (h2 kv hm))

theorem pairsToUpdates_symm (chname : Str) (ps : List (Str × List Endpoint))
    (us : List (Endpoint × SyncVal)) (h : pairsToUpdates chname ps = Except.ok us) :
    SymmAL us := by
  induction ps generalizing us with
  | nil =>
    simp [pairsToUpdates] at h
    subst h
    intro kv hkv
    simp at hkv
  | cons p rest ih =>
    obtain ⟨b, es⟩ := p
    match es with
    | [] => simp [pairsToUpdates] at h
    | [e] => simp [pairsToUpdates] at h
    | [e1, e2] =>
      simp only [pairsToUpdates] at h
      cases htail : pairsToUpdates chname rest with
      | error err => rw [htail] at h; simp [Bind.bind, Except.bind] at h
      | ok tailUs =>
        rw [htail] at h
        simp [Bind.bind, Except.bind] at h
        subst h
        have hsymTail := ih tailUs htail
        intro kv hkv
        rcases List.mem_cons.mp hkv with heq | hkv2
        · subst heq; simp
        · rcases List.mem_cons.mp hkv2 with heq | hkv3
          · subst heq; simp
          · have := hsymTail kv hkv3
            simp [List.mem_cons]
            right; right
            exact this
    | e1 :: e2 :: e3 :: etail => simp [pairsToUpdates] at h

theorem channelEntries_symm (chname : Str) (ch : Channel)
    (us : List (Endpoint × SyncVal)) (h : channelEntries chname ch = Except.ok us) :
    SymmAL us := by
  unfold channelEntries at h
  cases hm : sideEntries ch.master ch.master_box ch.clause with
  | error err => rw [hm] at h; simp [Bind.bind, Except.bind] at h
  | ok mEntries =>
    cases hs : sideEntries ch.slave ch.slave_box ch.clause with
    | error err => rw [hm, hs] at h; simp [Bind.bind, Except.bind] at h
    | ok sEntries =>
      rw [hm, hs] at h
      simp [Bind.bind, Except.bind] at h
      exact pairsToUpdates_symm chname _ us h

theorem syncEntries_symm (channels : List (Str × Channel))
    (es : List (Endpoint × SyncVal)) (h : syncEntries channels = Except.ok es) :
    SymmAL es := by
  induction channels generalizing es with
  | nil =>
    simp [syncEntries] at h
    subst h
    intro kv hkv
    simp at hkv
  | cons c rest ih =>
    obtain ⟨chname, ch⟩ := c
    simp only [syncEntries] at h
    cases hc : channelEntries chname ch with
    | error err => rw [hc] at h; simp [Bind.bind, Except.bind] at h
    | ok ups =>
      cases ht : syncEntries rest with
      | error err => rw [hc, ht] at h; simp [Bind.bind, Except.bind] at h
      | ok tailEs =>
        rw [hc, ht] at h
        simp [Bind.bind, Except.bind] at h
        subst h
        exact symmAL_append (channelEntries_symm chname ch ups hc) (ih tailEs ht)

/-- C7 (amended): when the endpoint tuples inserted across all channels
are pairwise distinct, the returned syncmap is exactly the insertion list
and following the map twice returns to the start; overlapping channels can
overwrite one direction of an earlier pair and break the involution. -/
theorem c7_syncmap_involution_amended (channels : List (Str × Channel))
    (es : List (Endpoint × SyncVal)) (e : Endpoint) (p : SyncVal)
    (h1 : syncEntries channels = Except.ok es)
    (h2 : keysNodup es)
    (h3 : dictGet es e = some p) :
    get_syncmap channels = Except.ok es ∧ dictGet es p.1 = some (e, p.2) := by
  constructor
  · simp [get_syncmap, h1, Except.map, foldl_upsert_eq h2]
  · have hsym := syncEntries_symm channels es h1
    have hmir := hsym (e, p) (dictGet_mem h3)
    exact mem_dictGet_nodup h2 hmir

def c7storeA : Store :=
  { name := "A".toList, path := "pA/".toList, inbox := none,
    delimiter := '.', mailboxes := [] }

def c7storeB : Store :=
  { name := "B".toList, path := "pB/".toList, inbox := some ("pB/in".toList),
    delimiter := '/', mailboxes := [] }

def c7storeC : Store :=
  { name := "C".toList, path := "pC/".toList, inbox := some ("pC/in".toList),
    delimiter := '/', mailboxes := [] }

def c7chanX : Channel :=
  { master := c7storeA, slave := c7storeB,
    master_box := "M".toList, slave_box := "S".toList, clause := Clause.single }

def c7chanY : Channel :=
  { master := c7storeA, slave := c7storeC,
    master_box := "M".toList, slave_box := "T".toList, clause := Clause.single }

def c7endA : Endpoint := ("A".toList, "M".toList, "pA/M".toList)

def c7endB : Endpoint := ("B".toList, "S".toList, "pB/S".toList)

def c7endC : Endpoint := ("C".toList, "T".toList, "pC/T".toList)

def c7goodEntries : List (Endpoint × SyncVal) :=
  [(c7endA, (c7endB, "c1".toList)), (c7endB, (c7endA, "c1".toList))]

/-- C7 witness: one single-box channel between two distinct stores; the
involution holds at both endpoints. -/
theorem c7_syncmap_involution_witness :
    get_syncmap [("c1".toList, c7chanX)] = Except.ok c7goodEntries
    ∧ dictGet c7goodEntries c7endB = some (c7endA, "c1".toList) :=
  c7_syncmap_involution_amended [("c1".toList, c7chanX)] c7goodEntries
    c7endA (c7endB, "c1".toList) rfl (by decide) rfl

def c7badMap : List (Endpoint × SyncVal) :=
  [(c7endA, (c7endC, "c2".toList)), (c7endB, (c7endA, "c1".toList)),
   (c7endC, (c7endA, "c2".toList))]

/-- C7 counterexample: two channels sharing the master endpoint; the later
channel overwrites the forward direction of the earlier pair, so following
the map twice from the earlier slave endpoint does not return to it. -/
theorem c7_syncmap_involution_counterexample :
    get_syncmap [("c1".toList, c7chanX), ("c2".toList, c7chanY)] = Except.ok c7badMap
    ∧ dictGet c7badMap c7endB = some (c7endA, "c1".toList)
    ∧ dictGet c7badMap c7endA = some (c7endC, "c2".toList)
    ∧ c7endC ≠ c7endB := by
  refine ⟨rfl, rfl, rfl, by decide⟩

/-! ## The connection pool

Sessions are modelled by identifiers; the session object returned by a
fresh connect is a parameter, fresh in the sense that it is not yet
registered in the pool.  Keys are (host, port, user) triples. -/

abbrev Session := Nat

abbrev PoolKey := Str × Nat × Str

/-- The three structures of the pool: the busy and released defaultdicts
of lists and the session-to-key map. -/
structure PoolState where
  busy : List (PoolKey × List Session)
  released : List (PoolKey × List Session)
  conKeyMap : List (Session × PoolKey)
deriving DecidableEq, Repr

/-- defaultdict(list) read: a missing key reads as the empty list. -/
def ddGet (m : List (PoolKey × List Session)) (k : PoolKey) : List Session :=
  (dictGet m k).getD []

/-- ConnectionPool._add_connection: append to busy of the key and record
the key of the session. -/
def add_connection (st : PoolState) (con : Session) (key : PoolKey) : PoolState :=
  { st with
    busy := dictUpsert st.busy key (ddGet st.busy key ++ [con]),
    conKeyMap := dictUpsert st.conKeyMap con key }

/-- ConnectionPool._remove_connection: drop the session from released or
busy of its key, then delete its map entry; none when the session is not
registered (Python KeyError). -/
def remove_connection (st : PoolState) (con : Session) : Option PoolState := do
  let key ← dictGet st.conKeyMap con
  let st' :=
    if con ∈ ddGet st.released key then
      { st with released := dictUpsert st.released key ((ddGet st.released key).erase con) }
    else if con ∈ ddGet st.busy key then
      { st with busy := dictUpsert st.busy key ((ddGet st.busy key).erase con) }
    else st
  some { st' with conKeyMap := dictDel st'.conKeyMap con }

/-- ConnectionPool.reconnect: connect a new session for the key of con,
add it, then remove con.  The new session object made by _connect is the
parameter fresh. -/
def reconnect (st : PoolState) (con fresh : Session) : Option (Session × PoolState) := do
  let key ← dictGet st.conKeyMap con
  let fin ← remove_connection (add_connection st fresh key) con
  some (fresh, fin)

/-- ConnectionPool.release: move the last session of busy of the key of
con to released; none when con is unregistered or the busy list is empty
(Python KeyError or IndexError). -/
def release (st : PoolState) (con : Session) : Option PoolState := do
  let key ← dictGet st.conKeyMap con
  let moved ← (ddGet st.busy key).getLast?
  some { st with
    busy := dictUpsert st.busy key (ddGet st.busy key).dropLast,
    released := dictUpsert st.released key (ddGet st.released key ++ [moved]) }

/-- ConnectionPool.get_or_create_connection: pop the last released session
of the key when one exists, else register the fresh session; the Bool
records whether a new connection was opened. -/
def get_or_create_connection (st : PoolState) (key : PoolKey) (fresh : Session) :
    Session × Bool × PoolState :=
  let rel := ddGet st.released key
  match rel.getLast? with
  | some con =>
      (con, false,
        { st with
          released := dictUpsert st.released key rel.dropLast,
          busy := dictUpsert st.busy key (ddGet st.busy key ++ [con]) })
  | none => (fresh, true, add_connection st fresh key)

/-- ConnectionPool.count. -/
def count (st : PoolState) : Nat := st.conKeyMap.length

/-- The sessions the pool currently maps to a key: the set close_all
iterates, restricted to the key. -/
def keySessions (st : PoolState) (k : PoolKey) : List Session :=
  (st.conKeyMap.filter fun p => p.2 = k).map Prod.fst

theorem dictGet_upsert_self {α β : Type} [DecidableEq α] (m : List (α × β)) (k : α) (v : β) :
    dictGet (dictUpsert m k v) k = some v := by
  induction m with
  | nil => simp [dictGet, dictUpsert]
  | cons kv rest ih =>
    obtain ⟨k', v'⟩ := kv
    by_cases hk : k' = k
    · simp [dictGet, dictUpsert, hk]
    · simp [dictGet, dictUpsert, hk, ih]

theorem dictGet_upsert_ne {α β : Type} [DecidableEq α] (m : List (α × β)) (k a : α) (v : β)
    (h : a ≠ k) : dictGet (dictUpsert m k v) a = dictGet m a := by
  have hka : ¬ k = a := fun hh => h hh.symm
  induction m with
  | nil => simp [dictGet, dictUpsert, hka]
  | cons kv rest ih =>
    obtain ⟨k', v'⟩ := kv
    by_cases hk : k' = k
    · subst hk
      simp [dictGet, dictUpsert, hka]
    · simp only [dictUpsert, if_neg hk]
      by_cases ha : k' = a
      · simp [dictGet, ha]
      · simp [dictGet, ha, ih]

theorem dictGet_del_ne {α β : Type} [DecidableEq α] (m : List (α × β)) (b a : α)
    (h : a ≠ b) : dictGet (dictDel m b) a = dictGet m a := by
  induction m with
  | nil => simp [dictDel]
  | cons kv rest ih =>
    obtain ⟨k', v'⟩ := kv
    by_cases hk : k' = b
    · subst hk
      have hka : ¬ k' = a := fun hh => h hh.symm
      simp [dictGet, dictDel, hka]
    · simp only [dictDel, if_neg hk]
      by_cases ha : k' = a
      · simp [dictGet, ha]
      · simp [dictGet, ha, ih]

theorem dictDel_length {α β : Type} [DecidableEq α] (m : List (α × β)) (a : α)
    (h : dictGet m a ≠ none) : (dictDel m a).length + 1 = m.length := by
  induction m with
  | nil => simp [dictGet] at h
  | cons kv rest ih =>
    obtain ⟨k', v'⟩ := kv
    by_cases hk : k' = a
    · simp [dictDel, hk]
    · simp [dictGet, hk] at h
      simp [dictDel, hk]
      exact ih h

theorem dictUpsert_length_not_mem {α β : Type} [DecidableEq α] (m : List (α × β)) (k : α) (v : β)
    (h : dictGet m k = none) : (dictUpsert m k v).length = m.length + 1 := by
  induction m with
  | nil => simp [dictUpsert]
  | cons kv rest ih =>
    obtain ⟨k', v'⟩ := kv
    by_cases hk : k' = k
    · simp [dictGet, hk] at h
    · simp [dictGet, hk] at h
      simp [dictUpsert, hk]
      exact ih h

theorem keySessions_ne_nil {st : PoolState} {s : Session} {k : PoolKey}
    (h : (s, k) ∈ st.conKeyMap) : keySessions st k ≠ [] := by
  intro hemp
  have hmem : s ∈ (st.conKeyMap.filter fun p => p.2 = k).map Prod.fst :=
    List.mem_map.mpr ⟨(s, k), List.mem_filter.mpr ⟨h, by simp⟩, rfl⟩
  rw [show keySessions st k = (st.conKeyMap.filter fun p => p.2 = k).map Prod.fst
    from rfl] at hemp
  rw [hemp] at hmem
  simp at hmem

theorem dictGet_mem_of_some {α β : Type} [DecidableEq α] {m : List (α × β)} {k : α} {v : β}
    (h : dictGet m k = some v) : (k, v) ∈ m := dictGet_mem h

theorem mem_dictDel_of_ne {α β : Type} [DecidableEq α] {m : List (α × β)} {k b : α} {v : β}
    (h : (k, v) ∈ m) (hne : k ≠ b) : (k, v) ∈ dictDel m b := by
  induction m with
  | nil => simp at h
  | cons kv rest ih =>
    obtain ⟨k', v'⟩ := kv
    rcases List.mem_cons.mp h with heq | hmem
    · cases heq
      simp only [dictDel, if_neg hne]
      exact List.mem_cons_self _ _
    · by_cases hk : k' = b
      · simp only [dictDel, if_pos hk]
        exact hmem
      · simp only [dictDel, if_neg hk]
        exact List.mem_cons_of_mem _ (ih hmem)

theorem mem_dictUpsert_of_ne {α β : Type} [DecidableEq α] {m : List (α × β)} {k u : α} {v w : β}
    (h : (k, v) ∈ m) (hne : k ≠ u) : (k, v) ∈ dictUpsert m u w := by
  induction m with
  | nil => simp at h
  | cons kv rest ih =>
    obtain ⟨k', v'⟩ := kv
    rcases List.mem_cons.mp h with heq | hmem
    · cases heq
      simp only [dictUpsert, if_neg hne]
      exact List.mem_cons_self _ _
    · by_cases hk : k' = u
      · simp only [dictUpsert, if_pos hk]
        exact List.mem_cons_of_mem _ hmem
      · simp only [dictUpsert, if_neg hk]
        exact List.mem_cons_of_mem _ (ih hmem)

theorem remove_connection_conKeyMap {st : PoolState} {con : Session} {fin : PoolState}
    (h : remove_connection st con = some fin) :
    fin.conKeyMap = dictDel st.conKeyMap con := by
  unfold remove_connection at h
  cases hk : dictGet st.conKeyMap con with
  | none => rw [hk] at h; simp [Option.bind] at h
  | some key =>
    rw [hk] at h
    simp only [Option.bind_eq_bind, Option.some_bind, Option.some.injEq] at h
    subst h
    show dictDel (
      if con ∈ ddGet st.released key then
        { st with released := dictUpsert st.released key ((ddGet st.released key).erase con) }
      else if con ∈ ddGet st.busy key then
        { st with busy := dictUpsert st.busy key ((ddGet st.busy key).erase con) }
      else st).conKeyMap con = dictDel st.conKeyMap con
    split
    · rfl
    · split
      · rfl
      · rfl

/-- C5: reconnect returns a session distinct from its input, registered
under the same key; count is unchanged; and the sessions the pool maps to
the key are nonempty both in the intermediate state (new session added,
old not yet removed) and in the final state. -/
theorem c5_reconnect_identity (st : PoolState) (con fresh : Session) (k : PoolKey)
    (hcon : dictGet st.conKeyMap con = some k)
    (hfresh : dictGet st.conKeyMap fresh = none) :
    ∃ fin : PoolState,
      reconnect st con fresh = some (fresh, fin)
      ∧ fresh ≠ con
      ∧ dictGet fin.conKeyMap fresh = some k
      ∧ count fin = count st
      ∧ keySessions (add_connection st fresh k) k ≠ []
      ∧ keySessions fin k ≠ [] := by
  have hne : fresh ≠ con := by
    intro he
    rw [he, hcon] at hfresh
    exact Option.noConfusion hfresh
  have hconMid : dictGet (dictUpsert st.conKeyMap fresh k) con = some k := by
    rw [dictGet_upsert_ne _ _ _ _ (fun hh => hne hh.symm)]
    exact hcon
  have hfreshMid : dictGet (dictUpsert st.conKeyMap fresh k) fresh = some k :=
    dictGet_upsert_self _ _ _
  obtain ⟨fin, hfin⟩ : ∃ fin, remove_connection (add_connection st fresh k) con = some fin := by
    unfold remove_connection add_connection
    dsimp only
    rw [hconMid]
    exact ⟨_, rfl⟩
  have hfinMap : fin.conKeyMap = dictDel (dictUpsert st.conKeyMap fresh k) con :=
    remove_connection_conKeyMap hfin
  refine ⟨fin, ?_, hne, ?_, ?_, ?_, ?_⟩
  · unfold reconnect
    rw [hcon]
    simp only [Option.bind_eq_bind, Option.some_bind, hfin]
  · rw [hfinMap]
    rw [dictGet_del_ne _ _ _ hne]
    exact dictGet_upsert_self _ _ _
  · show fin.conKeyMap.length = st.conKeyMap.length
    rw [hfinMap]
    have h1 : (dictDel (dictUpsert st.conKeyMap fresh k) con).length + 1
        = (dictUpsert st.conKeyMap fresh k).length := by
      apply dictDel_length
      rw [hconMid]
      simp
    have h2 : (dictUpsert st.conKeyMap fresh k).length = st.conKeyMap.length + 1 :=
      dictUpsert_length_not_mem _ _ _ hfresh
    omega
  · exact keySessions_ne_nil (s := fresh) (dictGet_mem hfreshMid)
  · have hmem : (fresh, k) ∈ dictDel (dictUpsert st.conKeyMap fresh k) con :=
      mem_dictDel_of_ne (dictGet_mem hfreshMid) hne
    rw [← hfinMap] at hmem
    exact keySessions_ne_nil hmem

def c5key : PoolKey := ("h".toList, 143, "u".toList)

def c5state : PoolState :=
  { busy := [(c5key, [1])], released := [], conKeyMap := [(1, c5key)] }

/-- C5 witness: reconnecting the only pooled session with a fresh one. -/
theorem c5_reconnect_identity_witness :
    ∃ fin : PoolState,
      reconnect c5state 1 2 = some (2, fin)
      ∧ 2 ≠ 1
      ∧ dictGet fin.conKeyMap 2 = some c5key
      ∧ count fin = count c5state
      ∧ keySessions (add_connection c5state 2 c5key) c5key ≠ []
      ∧ keySessions fin c5key ≠ [] :=
  c5_reconnect_identity c5state 1 2 c5key (by decide) (by decide)

theorem ddGet_upsert_self (m : List (PoolKey × List Session)) (k : PoolKey) (v : List Session) :
    ddGet (dictUpsert m k v) k = v := by
  unfold ddGet
  rw [dictGet_upsert_self]
  rfl

/-- C6 (amended): release moves the most recently appended busy session of
the key, not necessarily s; when s is that last busy session, release
followed by get_or_create_connection with the same key returns s without
opening a new connection. -/
theorem c6_release_get_amended (st : PoolState) (s fresh : Session) (k : PoolKey)
    (hmap : dictGet st.conKeyMap s = some k)
    (hlast : (ddGet st.busy k).getLast? = some s) :
    ∃ st1 : PoolState,
      release st s = some st1
      ∧ (get_or_create_connection st1 k fresh).1 = s
      ∧ (get_or_create_connection st1 k fresh).2.1 = false := by
  refine ⟨{ st with
      busy := dictUpsert st.busy k (ddGet st.busy k).dropLast,
      released := dictUpsert st.released k (ddGet st.released k ++ [s]) }, ?_, ?_, ?_⟩
  · unfold release
    rw [hmap]
    simp only [Option.bind_eq_bind, Option.some_bind, hlast]
  · have hrel : ddGet
        { st with
          busy := dictUpsert st.busy k (ddGet st.busy k).dropLast,
          released := dictUpsert st.released k (ddGet st.released k ++ [s]) }.released k
        = ddGet st.released k ++ [s] := ddGet_upsert_self _ _ _
    simp only [get_or_create_connection, hrel, List.getLast?_append_cons,
      List.getLast?_singleton]
  · have hrel : ddGet
        { st with
          busy := dictUpsert st.busy k (ddGet st.busy k).dropLast,
          released := dictUpsert st.released k (ddGet st.released k ++ [s]) }.released k
        = ddGet st.released k ++ [s] := ddGet_upsert_self _ _ _
    simp only [get_or_create_connection, hrel, List.getLast?_append_cons,
      List.getLast?_singleton]

def c6state : PoolState :=
  { busy := [(c5key, [1])], released := [], conKeyMap := [(1, c5key)] }

/-- C6 witness: a pool with one busy session; releasing it and asking for
the same key returns it without a new connection. -/
theorem c6_release_get_witness :
    ∃ st1 : PoolState,
      release c6state 1 = some st1
      ∧ (get_or_create_connection st1 c5key 9).1 = 1
      ∧ (get_or_create_connection st1 c5key 9).2.1 = false :=
  c6_release_get_amended c6state 1 9 c5key (by decide) (by decide)

def c6state2 : PoolState :=
  { busy := [(c5key, [1, 2])], released := [],
    conKeyMap := [(1, c5key), (2, c5key)] }

/-- C6 counterexample: with busy sessions [1, 2] under the key, releasing
session 1 moves session 2, and the next get_or_create_connection returns
session 2, not session 1. -/
theorem c6_release_get_counterexample :
    (release c6state2 1).map (fun st1 => (get_or_create_connection st1 c5key 9).1)
      = some 2
    ∧ (release c6state2 1).map (fun st1 => (get_or_create_connection st1 c5key 9).1)
      ≠ some 1 := by
  refine ⟨rfl, by decide⟩

/-! ## The IDLE driver

The server side of one connection is modelled as a script of network
events: a received line, or a socket read timeout (which _recv_simple
turns into IMAPTimeout). -/

/-- Python whitespace, as str.split and str.rstrip with no argument use. -/
def pyIsSpace (c : Char) : Bool :=
  c = ' ' || c = '\t' || c = '\n' || c = '\r' || c = '\x0b' || c = '\x0c'

/-- Python str.rstrip with no argument. -/
def rstrip (s : Str) : Str := (s.reverse.dropWhile pyIsSpace).reverse

/-- The parse done by _recv_simple: rstrip the line, split on whitespace
into at most three parts; fewer than two parts is a protocol abort
(none).  The third part keeps its internal spacing. -/
def splitResp (raw : Str) : Option (Str × Str × Str) :=
  let s0 := rstrip raw
  let r0 := s0.dropWhile pyIsSpace
  let t1 := r0.takeWhile fun c => !pyIsSpace c
  let r1 := (r0.dropWhile fun c => !pyIsSpace c).dropWhile pyIsSpace
  let t2 := r1.takeWhile fun c => !pyIsSpace c
  let r2 := (r1.dropWhile fun c => !pyIsSpace c).dropWhile pyIsSpace
  if t1.isEmpty || t2.isEmpty then none else some (t1, t2, r2)

/-- One network event seen by _recv inside idle. -/
inductive NetEvent
  | line (s : Str)
  | timeout
deriving DecidableEq, Repr

/-- How one idle iteration can fail. -/
inductive IdleErr
  | abort
  | imapTimeout
  | outOfEvents
deriving DecidableEq, Repr

/-- The continuation-wait loop of idle: read lines until one starts with
`+`; a line that is neither `+` nor `*`, or whose second field is NO or
BAD, aborts.  Returns the fields of the final line and the remaining
events.  An IMAPTimeout in this loop is not caught and propagates. -/
def contWait : List NetEvent → Except IdleErr (Str × Str × Str × List NetEvent)
  | [] => Except.error IdleErr.outOfEvents
  | NetEvent.timeout :: _ => Except.error IdleErr.imapTimeout
  | NetEvent.line l :: rest =>
      match splitResp l with
      | none => Except.error IdleErr.abort
      | some (t, r, x) =>
          if t ≠ "+".toList ∧ t ≠ "*".toList then Except.error IdleErr.abort
          else if r = "NO".toList ∨ r = "BAD".toList then Except.error IdleErr.abort
          else if t = "+".toList then Except.ok (t, r, x, rest)
          else contWait rest

/-- The change-wait loop of idle: read lines until one whose text field is
EXISTS; a timeout is caught and breaks the loop, leaving the variables at
their previous values. -/
def changeWait (t r x : Str) : List NetEvent → Except IdleErr (Str × Str × Str × List NetEvent)
  | [] => Except.error IdleErr.outOfEvents
  | NetEvent.timeout :: rest => Except.ok (t, r, x, rest)
  | NetEvent.line l :: rest =>
      match splitResp l with
      | none => Except.error IdleErr.abort
      | some (t', r', x') =>
          if x' = "EXISTS".toList then Except.ok (t', r', x', rest)
          else changeWait t' r' x' rest

/-- The tagged-completion loop of idle: read lines until one starts with
the tag; OK completes, anything else on the tag aborts. -/
def okWait (tag : Str) : List NetEvent → Except IdleErr (List NetEvent)
  | [] => Except.error IdleErr.outOfEvents
  | NetEvent.timeout :: _ => Except.error IdleErr.imapTimeout
  | NetEvent.line l :: rest =>
      match splitResp l with
      | none => Except.error IdleErr.abort
      | some (tk, ok, _) =>
          if tk = tag then
            if ok = "OK".toList then Except.ok rest else Except.error IdleErr.abort
          else okWait tag rest

/-- One iteration of the idle loop against a scripted server: the
continuation wait, then, unless the final continuation line itself carried
the text EXISTS, the change wait, then DONE and the tagged completion.
The Bool is whether the iteration fires (invokes the callback): the text
variable equals EXISTS after the waits. -/
def idleIteration (tag : Str) (events : List NetEvent) :
    Except IdleErr (Bool × List NetEvent) := do
  let (t, r, x, rest) ← contWait events
  let (x2, rest2) ←
    if t = "+".toList ∧ x ≠ "EXISTS".toList then do
      let (_, _, x', rest') ← changeWait t r x rest
      Except.ok (x', rest')
    else Except.ok (x, rest)
  let rest3 ← okWait tag rest2
  Except.ok (x2 = "EXISTS".toList, rest3)

/-- C2 (code bug): a `* 1 EXISTS` arriving before the `+` continuation
reply is forgotten, because the continuation loop overwrites the text
variable with the fields of the `+` line and has no break on EXISTS; the
iteration then runs the change wait, and when that times out the
iteration completes without firing.  The same EXISTS arriving after the
`+` line does fire.  The specification says the early EXISTS must be
remembered and the change wait skipped. -/
theorem c2_exists_before_continuation_dropped :
    idleIteration ("A0".toList)
      [NetEvent.line ("* 1 EXISTS".toList), NetEvent.line ("+ idling".toList),
       NetEvent.timeout, NetEvent.line ("A0 OK IDLE terminated".toList)]
      = Except.ok (false, [])
    ∧ idleIteration ("A0".toList)
      [NetEvent.line ("+ idling".toList), NetEvent.line ("* 1 EXISTS".toList),
       NetEvent.line ("A0 OK IDLE terminated".toList)]
      = Except.ok (true, []) := by
  constructor
  · rfl
  · rfl

/-! ## Cooperative termination (idle_terminate) -/

/-- One socket event during the termination drain: a received line, a
socket or TLS error, or a read timeout (whose error text contains the
words timed out and which _recv_simple converts to IMAPTimeout). -/
inductive SockEvent
  | line (s : Str)
  | sockErr
  | timedOut
deriving DecidableEq, Repr

/-- How the guarded operation ends once the terminating flag is set. -/
inductive TermResult
  | stopIdle
  | imapTimeout
  | hang
deriving DecidableEq, Repr

/-- The drain loop of idle_terminate: keep reading; a well-formed line
continues the loop; a malformed line raises abort, which is a con.error
and is caught, and a socket error is caught, both followed by StopIdle;
a read timeout becomes IMAPTimeout, which the wrapper does not catch. -/
def drainRecv : List SockEvent → TermResult
  | [] => TermResult.hang
  | SockEvent.line l :: rest =>
      match splitResp l with
      | some _ => drainRecv rest
      | none => TermResult.stopIdle
  | SockEvent.sockErr :: _ => TermResult.stopIdle
  | SockEvent.timedOut :: _ => TermResult.imapTimeout

/-- The idle_terminate wrapper around a send or recv: when the session is
terminating the socket is drained and the drain outcome is raised; when
it is not, the wrapped operation proceeds (none). -/
def idleTerminateGuard (terminating : Bool) (events : List SockEvent) : Option TermResult :=
  if terminating then some (drainRecv events) else none

/-- How watch ends when the guarded operation raised: StopIdle is caught
and watch returns normally having invoked no callback; IMAPTimeout is not
caught by watch and escapes; a drain that never errors blocks. -/
inductive WatchResult
  | finished (calls : Nat)
  | exn
  | blocked
deriving DecidableEq, Repr

def watchTerminating : TermResult → WatchResult
  | TermResult.stopIdle => WatchResult.finished 0
  | TermResult.imapTimeout => WatchResult.exn
  | TermResult.hang => WatchResult.blocked

/-- An event at which the drain loop keeps looping: a well-formed line. -/
def wfLine : SockEvent → Bool
  | SockEvent.line l => (splitResp l).isSome
  | _ => false

theorem drainRecv_past_lines (pre : List SockEvent) (rest : List SockEvent)
    (hpre : ∀ e ∈ pre, wfLine e = true) :
    drainRecv (pre ++ rest) = drainRecv rest := by
  induction pre with
  | nil => rfl
  | cons e t ih =>
    have he : wfLine e = true := hpre e (List.mem_cons_self e t)
    have hrest : ∀ x ∈ t, wfLine x = true :=
      fun x hx => hpre x (List.mem_cons_of_mem e hx)
    cases e with
    | line l =>
        cases hl : splitResp l with
        | none =>
            rw [show wfLine (SockEvent.line l) = (splitResp l).isSome from rfl, hl] at he
            simp at he
        | some v =>
            show drainRecv (SockEvent.line l :: (t ++ rest)) = drainRecv rest
            rw [show drainRecv (SockEvent.line l :: (t ++ rest))
                = match splitResp l with
                  | some _ => drainRecv (t ++ rest)
                  | none => TermResult.stopIdle from rfl]
            rw [hl]
            exact ih hrest
    | sockErr => simp [wfLine] at he
    | timedOut => simp [wfLine] at he

/-- C3 (amended): with the terminating flag set, the guarded send or recv
drains the socket; a socket or TLS error (or a malformed line, whose abort
is a con.error) during the drain is swallowed and StopIdle is raised,
which watch catches, returning normally with no callback invoked.  A read
timeout during the drain, however, is converted to IMAPTimeout, which the
wrapper does not swallow and watch does not catch, so that exception
escapes watch. -/
theorem c3_terminate_drain_amended :
    (∀ (pre rest : List SockEvent), (∀ e ∈ pre, wfLine e = true) →
      idleTerminateGuard true (pre ++ SockEvent.sockErr :: rest)
        = some TermResult.stopIdle
      ∧ watchTerminating (drainRecv (pre ++ SockEvent.sockErr :: rest))
        = WatchResult.finished 0)
    ∧ (∀ (pre rest : List SockEvent), (∀ e ∈ pre, wfLine e = true) →
      idleTerminateGuard true (pre ++ SockEvent.timedOut :: rest)
        = some TermResult.imapTimeout
      ∧ watchTerminating (drainRecv (pre ++ SockEvent.timedOut :: rest))
        = WatchResult.exn) := by
  constructor
  · intro pre rest hpre
    have hd : drainRecv (pre ++ SockEvent.sockErr :: rest) = TermResult.stopIdle := by
      rw [drainRecv_past_lines pre _ hpre]
      rfl
    constructor
    · show (if true = true then some (drainRecv (pre ++ SockEvent.sockErr :: rest))
        else none) = some TermResult.stopIdle
      rw [if_pos rfl, hd]
    · rw [hd]
      rfl
  · intro pre rest hpre
    have hd : drainRecv (pre ++ SockEvent.timedOut :: rest) = TermResult.imapTimeout := by
      rw [drainRecv_past_lines pre _ hpre]
      rfl
    constructor
    · show (if true = true then some (drainRecv (pre ++ SockEvent.timedOut :: rest))
        else none) = some TermResult.imapTimeout
      rw [if_pos rfl, hd]
    · rw [hd]
      rfl

/-- C3 counterexample: a read timeout hit while draining a terminating
session does not turn into StopIdle; it escapes watch as an exception,
contrary to the claim that no exception escapes watch. -/
theorem c3_timeout_escapes_counterexample :
    idleTerminateGuard true [SockEvent.timedOut] = some TermResult.imapTimeout
    ∧ watchTerminating (drainRecv [SockEvent.timedOut]) ≠ WatchResult.finished 0 := by
  refine ⟨rfl, by decide⟩

/-! ## C8: the synthetic initial sync-all task -/

instance (L : List (Endpoint × SyncVal)) : Decidable (SymmAL L) :=
  List.decidableBAll _ L

/-- mbwatch.make_sync_all_task: for each syncmap item keep the key when
its store is an IMAP store, else the endpoint part of the value; the
Python set is modelled by dedup (the set has no specified order; only
membership matters below).  The stores dict is modelled by the membership
predicate of the imapstore attribute. -/
def make_sync_all_task (syncmap : List (Endpoint × SyncVal))
    (isImapStore : Str → Bool) : List Endpoint :=
  (syncmap.map fun kv => if isImapStore kv.1.1 then kv.1 else kv.2.1).dedup

theorem keys_nodup_value_unique {α β : Type} [DecidableEq α] {L : List (α × β)}
    {k : α} {v1 v2 : β}
    (h : keysNodup L) (h1 : (k, v1) ∈ L) (h2 : (k, v2) ∈ L) : v1 = v2 := by
  have e1 := mem_dictGet_nodup h h1
  have e2 := mem_dictGet_nodup h h2
  rw [e1] at e2
  exact Option.some.inj e2

/-- C8 (amended): in a syncmap with pairwise distinct endpoints and
symmetric pairs, a pair with exactly one IMAP endpoint is represented in
the sync-all task by that IMAP endpoint alone; but a pair whose endpoints
are both IMAP or both Maildir is represented by both its endpoints, so
such a pair appears twice. -/
theorem c8_sync_all_amended (L : List (Endpoint × SyncVal)) (isImapStore : Str → Bool)
    (a b : Endpoint) (ch : Str)
    (hnd : keysNodup L) (hsym : SymmAL L) (hmem : (a, (b, ch)) ∈ L) :
    (isImapStore a.1 = true ∧ isImapStore b.1 = false →
      a ∈ make_sync_all_task L isImapStore ∧ b ∉ make_sync_all_task L isImapStore)
    ∧ (isImapStore a.1 = isImapStore b.1 →
      a ∈ make_sync_all_task L isImapStore ∧ b ∈ make_sync_all_task L isImapStore) := by
  have hmirror : (b, (a, ch)) ∈ L := hsym (a, (b, ch)) hmem
  have hmemS : ∀ kv ∈ L, (if isImapStore kv.1.1 then kv.1 else kv.2.1)
      ∈ make_sync_all_task L isImapStore := by
    intro kv hkv
    exact List.mem_dedup.mpr (List.mem_map.mpr ⟨kv, hkv, rfl⟩)
  constructor
  · intro ⟨ha, hb⟩
    constructor
    · have := hmemS (a, (b, ch)) hmem
      rw [show (if isImapStore (a, (b, ch)).1.1 then (a, (b, ch)).1
        else (a, (b, ch)).2.1) = a by simp [ha]] at this
      exact this
    · intro hbS
      obtain ⟨kv, hkv, hchosen⟩ := List.mem_map.mp (List.mem_dedup.mp hbS)
      by_cases hkvi : isImapStore kv.1.1 = true
      · rw [if_pos hkvi] at hchosen
        rw [hchosen] at hkvi
        rw [hkvi] at hb
        exact Bool.noConfusion hb
      · rw [if_neg hkvi] at hchosen
        have hmir2 : (kv.2.1, (kv.1, kv.2.2)) ∈ L := hsym kv hkv
        rw [hchosen] at hmir2
        have hval : ((kv.1, kv.2.2) : SyncVal) = (a, ch) :=
          keys_nodup_value_unique hnd hmir2 hmirror
        have hk1 : kv.1 = a := (Prod.ext_iff.mp hval).1
        rw [hk1] at hkvi
        exact hkvi ha
  · intro hab
    by_cases ha : isImapStore a.1 = true
    · have hb : isImapStore b.1 = true := by rw [← hab]; exact ha
      constructor
      · have := hmemS (a, (b, ch)) hmem
        rw [show (if isImapStore (a, (b, ch)).1.1 then (a, (b, ch)).1
          else (a, (b, ch)).2.1) = a by simp [ha]] at this
        exact this
      · have := hmemS (b, (a, ch)) hmirror
        rw [show (if isImapStore (b, (a, ch)).1.1 then (b, (a, ch)).1
          else (b, (a, ch)).2.1) = b by simp [hb]] at this
        exact this
    · have ha' : isImapStore a.1 = false := Bool.eq_false_iff.mpr ha
      have hb' : isImapStore b.1 = false := by rw [← hab]; exact ha'
      constructor
      · have := hmemS (b, (a, ch)) hmirror
        rw [show (if isImapStore (b, (a, ch)).1.1 then (b, (a, ch)).1
          else (b, (a, ch)).2.1) = a by simp [hb']] at this
        exact this
      · have := hmemS (a, (b, ch)) hmem
        rw [show (if isImapStore (a, (b, ch)).1.1 then (a, (b, ch)).1
          else (a, (b, ch)).2.1) = b by simp [ha']] at this
        exact this

def c8endA : Endpoint := ("A".toList, "Inbox".toList, "Inbox".toList)

def c8endB : Endpoint := ("B".toList, "Inbox".toList, "md/Inbox".toList)

def c8map : List (Endpoint × SyncVal) :=
  [(c8endA, (c8endB, "ch".toList)), (c8endB, (c8endA, "ch".toList))]

def c8isImap : Str → Bool := fun n => n = "A".toList

/-- C8 witness: a mixed IMAP/Maildir pair is represented once, by its
IMAP endpoint. -/
theorem c8_sync_all_witness :
    (c8isImap c8endA.1 = true ∧ c8isImap c8endB.1 = false →
      c8endA ∈ make_sync_all_task c8map c8isImap
      ∧ c8endB ∉ make_sync_all_task c8map c8isImap)
    ∧ (c8isImap c8endA.1 = c8isImap c8endB.1 →
      c8endA ∈ make_sync_all_task c8map c8isImap
      ∧ c8endB ∈ make_sync_all_task c8map c8isImap) :=
  c8_sync_all_amended c8map c8isImap c8endA c8endB ("ch".toList)
    (by decide) (by decide) (by decide)

def c8storeM1 : Store :=
  { name := "M1".toList, path := "p1/".toList, inbox := some ("p1/in".toList),
    delimiter := '/', mailboxes := [] }

def c8storeM2 : Store :=
  { name := "M2".toList, path := "p2/".toList, inbox := some ("p2/in".toList),
    delimiter := '/', mailboxes := [] }

def c8mmChannel : Channel :=
  { master := c8storeM1, slave := c8storeM2,
    master_box := "X".toList, slave_box := "Y".toList, clause := Clause.single }

def c8mmE1 : Endpoint := ("M1".toList, "X".toList, "p1/X".toList)

def c8mmE2 : Endpoint := ("M2".toList, "Y".toList, "p2/Y".toList)

def c8mmMap : List (Endpoint × SyncVal) :=
  [(c8mmE1, (c8mmE2, "mm".toList)), (c8mmE2, (c8mmE1, "mm".toList))]

/-- C8 counterexample: a Maildir-to-Maildir channel produced by
get_syncmap yields a sync-all task holding both endpoints of the pair, so
the pair is represented twice, contrary to the claim. -/
theorem c8_sync_all_counterexample :
    get_syncmap [("mm".toList, c8mmChannel)] = Except.ok c8mmMap
    ∧ c8mmE1 ∈ make_sync_all_task c8mmMap (fun _ => false)
    ∧ c8mmE2 ∈ make_sync_all_task c8mmMap (fun _ => false)
    ∧ c8mmE1 ≠ c8mmE2 := by
  refine ⟨rfl, by decide, by decide, by decide⟩

/-! ## C9: password redaction in the debug trace -/

/-- The lowest index at which pat occurs in s, as Python str.find returns
for a contained substring. -/
def findSubFrom (pat : Str) : Str → Option Nat
  | [] => if pat.isPrefixOf [] then some 0 else none
  | c :: t =>
      if pat.isPrefixOf (c :: t) then some 0
      else (findSubFrom pat t).map (· + 1)

def findSub (s pat : Str) : Option Nat := findSubFrom pat s

def loginMarker : Str := " LOGIN ".toList

/-- imapidle._mesg: when the line contains the LOGIN marker, log the line
truncated at find + 11 with an ellipsis; otherwise log it unchanged. -/
def mesgRedact (dat : Str) : Str :=
  match findSub dat loginMarker with
  | some i => dat.take (i + 11) ++ "...".toList
  | none => dat

theorem findSubFrom_eq_some_iff (pat : Str) (s : Str) (i : Nat) :
    findSubFrom pat s = some i ↔
      (pat.isPrefixOf (s.drop i) = true
        ∧ ∀ j, j < i → pat.isPrefixOf (s.drop j) = false) := by
  induction s generalizing i with
  | nil =>
    constructor
    · intro h
      unfold findSubFrom at h
      by_cases hp : pat.isPrefixOf ([] : Str) = true
      · rw [if_pos hp] at h
        have hi : i = 0 := (Option.some.inj h).symm
        subst hi
        exact ⟨by simpa using hp, fun j hj => absurd hj (Nat.not_lt_zero j)⟩
      · rw [if_neg hp] at h
        exact absurd h (by simp)
    · intro ⟨h1, h2⟩
      unfold findSubFrom
      cases i with
      | zero =>
        rw [if_pos (by simpa using h1)]
      | succ n =>
        exfalso
        have h0 := h2 0 (Nat.succ_pos n)
        rw [List.drop_zero] at h0
        rw [List.drop_nil] at h1
        rw [h1] at h0
        exact Bool.noConfusion h0
  | cons c t ih =>
    constructor
    · intro h
      unfold findSubFrom at h
      by_cases hp : pat.isPrefixOf (c :: t) = true
      · rw [if_pos hp] at h
        have hi : i = 0 := (Option.some.inj h).symm
        subst hi
        exact ⟨by simpa using hp, fun j hj => absurd hj (Nat.not_lt_zero j)⟩
      · rw [if_neg hp] at h
        cases hf : findSubFrom pat t with
        | none => rw [hf] at h; exact absurd h (by simp)
        | some n =>
            rw [hf] at h
            simp only [Option.map_some'] at h
            have hi : i = n + 1 := (Option.some.inj h).symm
            subst hi
            obtain ⟨hA, hB⟩ := (ih n).mp hf
            refine ⟨by simpa [List.drop_succ_cons] using hA, ?_⟩
            intro j hj
            cases j with
            | zero =>
                rw [List.drop_zero]
                exact Bool.eq_false_iff.mpr hp
            | succ m =>
                have hm : m < n := by omega
                simpa [List.drop_succ_cons] using hB m hm
    · intro ⟨h1, h2⟩
      unfold findSubFrom
      cases i with
      | zero =>
        rw [if_pos (by simpa using h1)]
      | succ n =>
        have hp0 : pat.isPrefixOf (c :: t) = false := by
          have := h2 0 (Nat.succ_pos n)
          simpa using this
        rw [if_neg (by simp [hp0])]
        have hrec : findSubFrom pat t = some n := by
          refine (ih n).mpr ⟨by simpa [List.drop_succ_cons] using h1, ?_⟩
          intro j hj
          have := h2 (j + 1) (by omega)
          simpa [List.drop_succ_cons] using this
        rw [hrec]
        rfl

theorem take_eq_take_drop {α : Type} :
    ∀ (i : Nat) (a b : List α) (n : Nat), a.take n = b.take n →
      (a.drop i).take (n - i) = (b.drop i).take (n - i)
  | 0, a, b, n, h => by simpa using h
  | i + 1, a, b, n, h => by
      cases n with
      | zero => simp
      | succ m =>
        cases a with
        | nil =>
            cases b with
            | nil => rfl
            | cons x xs => simp at h
        | cons y ys =>
            cases b with
            | nil => simp at h
            | cons x xs =>
                simp only [List.take_succ_cons, List.cons.injEq] at h
                obtain ⟨hy, ht⟩ := h
                simp only [List.drop_succ_cons]
                have := take_eq_take_drop i ys xs m ht
                simpa [Nat.succ_sub_succ] using this

theorem isPrefixOf_of_take_eq {α : Type} [DecidableEq α] :
    ∀ (p a b : List α) (n : Nat), a.take n = b.take n → p.length ≤ n →
      p.isPrefixOf a = true → p.isPrefixOf b = true
  | [], _, b, _, _, _, _ => by
      cases b with
      | nil => rfl
      | cons x xs => rfl
  | c :: p', a, b, n, h, hlen, hpre => by
      cases n with
      | zero => simp at hlen
      | succ m =>
        cases a with
        | nil => simp [List.isPrefixOf] at hpre
        | cons y ys =>
            cases b with
            | nil => simp at h
            | cons x xs =>
                simp only [List.take_succ_cons, List.cons.injEq] at h
                obtain ⟨hy, ht⟩ := h
                simp only [List.isPrefixOf] at hpre ⊢
                obtain ⟨hc, hrest⟩ := Bool.and_eq_true_iff.mp hpre
                refine Bool.and_eq_true_iff.mpr ⟨?_, ?_⟩
                · rw [← hy]
                  exact hc
                · exact isPrefixOf_of_take_eq p' ys xs m ht (by simpa using hlen) hrest

theorem isPrefixOf_drop_transfer {d1 d2 : Str} {i n : Nat} (pat : Str)
    (hagree : d1.take n = d2.take n) (hlen : i + pat.length ≤ n)
    (hpre : pat.isPrefixOf (d1.drop i) = true) :
    pat.isPrefixOf (d2.drop i) = true := by
  have hdrop := take_eq_take_drop i d1 d2 n hagree
  exact isPrefixOf_of_take_eq pat (d1.drop i) (d2.drop i) (n - i) hdrop
    (by omega) hpre

/-- C9 (amended): the debug trace of a LOGIN line is the line truncated
eleven characters past the start of the first LOGIN marker, that is four
characters past the end of the marker, not immediately after it; two
LOGIN lines whose markers start at the same index and that agree on those
first find + 11 characters produce identical log output.  A password can
still reach the log when the user name is shorter than three characters,
as the counterexample shows. -/
theorem c9_login_redaction_amended :
    (∀ (dat : Str) (i : Nat), findSub dat loginMarker = some i →
        mesgRedact dat = dat.take (i + 11) ++ "...".toList)
    ∧ (∀ (d1 d2 : Str) (i : Nat), findSub d1 loginMarker = some i →
        d1.take (i + 11) = d2.take (i + 11) →
        mesgRedact d1 = mesgRedact d2) := by
  have hmark : loginMarker.length = 7 := by decide
  have part1 : ∀ (dat : Str) (i : Nat), findSub dat loginMarker = some i →
      mesgRedact dat = dat.take (i + 11) ++ "...".toList := by
    intro dat i h
    unfold mesgRedact
    rw [h]
  refine ⟨part1, ?_⟩
  intro d1 d2 i h1 hagree
  obtain ⟨hpre1, hmin1⟩ := (findSubFrom_eq_some_iff loginMarker d1 i).mp h1
  have h2 : findSub d2 loginMarker = some i := by
    refine (findSubFrom_eq_some_iff loginMarker d2 i).mpr ⟨?_, ?_⟩
    · exact isPrefixOf_drop_transfer loginMarker hagree (by omega) hpre1
    · intro j hj
      by_contra hcon
      have hjt : loginMarker.isPrefixOf (d2.drop j) = true := by
        cases hv : loginMarker.isPrefixOf (d2.drop j) with
        | true => rfl
        | false => exact absurd hv hcon
      have hback : loginMarker.isPrefixOf (d1.drop j) = true :=
        isPrefixOf_drop_transfer loginMarker hagree.symm (by omega) hjt
      rw [hmin1 j hj] at hback
      exact Bool.noConfusion hback
  rw [part1 d1 i h1, part1 d2 i h2, hagree]

/-- C9 counterexample: two LOGIN lines with a one-character user name
that agree up to and just past the marker but carry different passwords
produce different log output, and the password appears in the log. -/
theorem c9_login_redaction_counterexample :
    ("x LOGIN a p".toList.take 8 = "x LOGIN a q".toList.take 8)
    ∧ mesgRedact ("x LOGIN a p".toList) = "x LOGIN a p...".toList
    ∧ mesgRedact ("x LOGIN a p".toList) ≠ mesgRedact ("x LOGIN a q".toList) := by
  refine ⟨by decide, by decide, by decide⟩

end Mbwatch
